import Mathlib

/-!
Verification development for the CSV report generator
(`generate_csv_from_postman_and_docs.py`).

Python strings are embedded as `List Char`.  Each definition below mirrors one
function (or one inlined step) of the source file; stateful scanning loops are
embedded as structural recursions over the list of lines, and fallible JSON
parsing is embedded as an `Option`-returning recursive-descent parser modelling
`json.loads` at the boundary used by the program.
-/

set_option maxRecDepth 4000
set_option synthInstance.maxHeartbeats 400000

/-- Whitespace set used by Python `str.strip()` (ASCII portion). -/
def isPySpace (c : Char) : Bool :=
  c == ' ' || c == '\t' || c == '\n' || c == '\r' || c == '\x0b' || c == '\x0c'

/-- Remove trailing characters satisfying `p` (right half of `str.strip`). -/
def dropTrailWhile (p : Char → Bool) : List Char → List Char
  | [] => []
  | c :: cs =>
    let r := dropTrailWhile p cs
    if r = [] ∧ p c then [] else c :: r

/-- Python `str.strip()` with no arguments: drop whitespace from both ends. -/
def pyStrip (l : List Char) : List Char :=
  dropTrailWhile isPySpace (l.dropWhile isPySpace)

/-- Python `str.replace(pat, rep)`: replace all non-overlapping occurrences,
scanning left to right over the original string (no rescan of replaced text).
An empty pattern is treated as a no-op (never used by the program). -/
def replaceAll (pat rep : List Char) : List Char → List Char
  | [] => []
  | c :: cs =>
    if pat.isPrefixOf (c :: cs) ∧ pat ≠ [] then
      rep ++ replaceAll pat rep (cs.drop (pat.length - 1))
    else
      c :: replaceAll pat rep cs
termination_by l => l.length
decreasing_by
  · simp only [List.length_drop, List.length_cons]; omega
  · simp only [List.length_cons]; omega

/-- Python `pat in s` (substring test). -/
def containsSub (pat l : List Char) : Bool :=
  l.tails.any (fun t => pat.isPrefixOf t)

/-- The canonical parameter marker `{param}` both regex substitutions insert. -/
def pParam : List Char := '{' :: 'p' :: 'a' :: 'r' :: 'a' :: 'm' :: '}' :: []

/-- Literal `{{baseUrl}}`. -/
def litBase : List Char :=
  '{' :: '{' :: 'b' :: 'a' :: 's' :: 'e' :: 'U' :: 'r' :: 'l' :: '}' :: '}' :: []

/-- Literal `{{localUrl}}`. -/
def litLocal : List Char :=
  '{' :: '{' :: 'l' :: 'o' :: 'c' :: 'a' :: 'l' :: 'U' :: 'r' :: 'l' :: '}' :: '}' :: []

/-- Literal `{{stagingUrl}}`. -/
def litStaging : List Char :=
  '{' :: '{' :: 's' :: 't' :: 'a' :: 'g' :: 'i' :: 'n' :: 'g' :: 'U' :: 'r' :: 'l' :: '}' :: '}' :: []

/-- Literal `http://localhost:8787/api/v1`. -/
def litHost : List Char := "http://localhost:8787/api/v1".toList

/-- Literal `/api/v1`. -/
def litApi : List Char := "/api/v1".toList

/-- The base-URL / version-prefix stripping step of `normalize_path`
(lines 8-12 of the source), in source order. -/
def stripLiterals (l : List Char) : List Char :=
  replaceAll litApi []
    (replaceAll litHost []
      (replaceAll litStaging []
        (replaceAll litLocal []
          (replaceAll litBase [] l))))

/-- The character class `[^\x7d]` of the double-brace pattern. -/
def pB : Char → Bool := fun x => x ≠ '}'

/-- The character class `[^/]` of the colon pattern. -/
def pC : Char → Bool := fun x => x ≠ '/'

/-- After skipping the maximal non-brace run, do two closing braces follow? -/
def almostB (l : List Char) : Bool :=
  ['}', '}'].isPrefixOf (l.dropWhile pB)

/-- Does the double-brace regex pattern match at position 0?  The pattern is
`\x7b\x7b[^\x7d]+\x7d\x7d`: two opening braces, a nonempty run of non-brace
characters (greedy, no backtracking possible), two closing braces. -/
def matchB : List Char → Bool
  | '{' :: '{' :: rest => !(rest.takeWhile pB).isEmpty && almostB rest
  | _ => false

/-- `re.sub` of the double-brace pattern with `{param}`: leftmost,
non-overlapping matches are replaced; on failure the scan advances one
character.  On a match the consumed span is the two opening braces, the
maximal non-brace run, and the two closing braces. -/
def braceSub : List Char → List Char
  | [] => []
  | [c] => [c]
  | c :: d :: rest =>
    if matchB (c :: d :: rest) = true then
      pParam ++ braceSub ((rest.dropWhile pB).drop 2)
    else
      c :: braceSub (d :: rest)
termination_by l => l.length
decreasing_by
  · have h : (rest.dropWhile pB).length ≤ rest.length :=
      (List.dropWhile_sublist _).length_le
    simp only [List.length_drop, List.length_cons]; omega
  · simp only [List.length_cons]; omega

/-- Does the colon pattern `:[^/]+` match at position 0: a colon followed by a
nonempty (greedy) run of non-slash characters. -/
def matchC : List Char → Bool
  | ':' :: c :: _ => c ≠ '/'
  | _ => false

/-- `re.sub` of the colon pattern with `{param}`. -/
def colonSub : List Char → List Char
  | [] => []
  | c :: cs =>
    if matchC (c :: cs) = true then
      pParam ++ colonSub (cs.dropWhile pC)
    else
      c :: colonSub cs
termination_by l => l.length
decreasing_by
  · have h : (cs.dropWhile pC).length ≤ cs.length :=
      (List.dropWhile_sublist _).length_le
    simp only [List.length_cons]; omega
  · simp only [List.length_cons]; omega

/-- Lines 25-26 of the source: prepend a slash when the path does not already
start with one. -/
def pySlash (l : List Char) : List Char :=
  match l with
  | '/' :: _ => l
  | _ => '/' :: l

/-- `normalize_path` (source lines 6-28): strip known base-URL literals,
replace `\x7b\x7bname\x7d\x7d` placeholders, replace `:name` segments, ensure a
leading slash, then strip surrounding whitespace. -/
def normalize_path (l : List Char) : List Char :=
  pyStrip (pySlash (colonSub (braceSub (stripLiterals l))))

/-- Values produced by `json.loads` (plus `jother`, standing for any non-JSON
Python value; its payload models `str(type(val))`).  Objects keep insertion
order, as Python dicts do. -/
inductive JVal where
  | jnull : JVal
  | jbool : Bool → JVal
  | jint : Int → JVal
  | jfloat : Int → Int → JVal
  | jstr : List Char → JVal
  | jarr : List JVal → JVal
  | jobj : List (List Char × JVal) → JVal
  | jother : List Char → JVal

instance : Inhabited JVal := ⟨JVal.jnull⟩

/-- One insertion into a Python dict modelled as an association list: an
existing key keeps its position and gets the new value, a new key is appended. -/
def pyDictInsert (acc : List (List Char × JVal)) (kv : List Char × JVal) :
    List (List Char × JVal) :=
  if acc.any (fun p => p.1 == kv.1) then
    acc.map (fun p => if p.1 == kv.1 then (p.1, kv.2) else p)
  else
    acc ++ [kv]

/-- Python `dict(pairs)`: fold the pairs into an empty dict. -/
def pyDict (l : List (List Char × JVal)) : List (List Char × JVal) :=
  l.foldl pyDictInsert []

/-- Key extension in `flatten_json`: `f"{parent_key}.{k}" if parent_key else k`. -/
def newKey (pk k : List Char) : List Char :=
  if pk.isEmpty then k else pk ++ '.' :: k

/-- The array marker `[]` appended to paths. -/
def arrMark : List Char := '[' :: ']' :: []

/-- `flatten_json` (source lines 142-158).  Objects recurse on every value with
a dotted key; a non-empty array recurses on its first element only when that
element is a dict, otherwise it emits the first element itself at the `[]`
path; an empty array emits itself; anything else is a leaf.  The item list is
turned into a dict at each level (`return dict(items)`). -/
def flatten_json (y : JVal) (pk : List Char) : List (List Char × JVal) :=
  match y with
  | .jobj kvs =>
    pyDict (List.flatten (kvs.attach.map
      (fun kv => flatten_json kv.1.2 (newKey pk kv.1.1))))
  | .jarr (x :: _) =>
    (match x with
     | .jobj kvs2 => pyDict (flatten_json (JVal.jobj kvs2) (pk ++ arrMark))
     | _ => pyDict [(pk ++ arrMark, x)])
  | .jarr [] => pyDict [(pk ++ arrMark, JVal.jarr [])]
  | v => pyDict [(pk, v)]
termination_by sizeOf y
decreasing_by
  · rcases kv with ⟨⟨a, b⟩, hmem⟩
    have h1 : sizeOf (a, b) < sizeOf kvs := List.sizeOf_lt_of_mem hmem
    simp only [JVal.jobj.sizeOf_spec, Prod.mk.sizeOf_spec] at h1 ⊢
    omega
  · simp only [JVal.jarr.sizeOf_spec, JVal.jobj.sizeOf_spec, List.cons.sizeOf_spec]
    omega

/-- Python `isinstance(val, bool)`. -/
def pyIsBool : JVal → Bool
  | .jbool _ => true
  | _ => false

/-- Python `isinstance(val, int)`: true for ints and also for booleans, since
Python `bool` is a subclass of `int` (this is why the source checks `bool`
first). -/
def pyIsIntInst : JVal → Bool
  | .jint _ => true
  | .jbool _ => true
  | _ => false

/-- Python `isinstance(val, float)`. -/
def pyIsFloat : JVal → Bool
  | .jfloat _ _ => true
  | _ => false

/-- Python `isinstance(val, str)`. -/
def pyIsStr : JVal → Bool
  | .jstr _ => true
  | _ => false

/-- Python `isinstance(val, list)`. -/
def pyIsList : JVal → Bool
  | .jarr _ => true
  | _ => false

/-- Python `isinstance(val, dict)`. -/
def pyIsDict : JVal → Bool
  | .jobj _ => true
  | _ => false

/-- Python `val is None`. -/
def pyIsNone : JVal → Bool
  | .jnull => true
  | _ => false

/-- `str(type(val))` for the fallback branch; only `jother` carries such a
descriptor (every JSON-derived value is caught by an earlier isinstance
check, so the other cases are unreachable from `get_type_name`). -/
def pyTypeDesc : JVal → List Char
  | .jother d => d
  | _ => []

/-- `get_type_name` (source lines 160-176): the isinstance chain in source
order, `bool` before `int` because Python booleans are ints. -/
def get_type_name (v : JVal) : List Char :=
  if pyIsBool v then "boolean".toList
  else if pyIsIntInst v then "integer".toList
  else if pyIsFloat v then "float".toList
  else if pyIsStr v then "string".toList
  else if pyIsList v then "array".toList
  else if pyIsDict v then "object".toList
  else if pyIsNone v then "null".toList
  else pyTypeDesc v

/-- Python truthiness of a value (`if not resp_data:` and friends):
`None`, `False`, zero, empty string/list/dict are falsy. -/
def pyTruthy : JVal → Bool
  | .jnull => false
  | .jbool b => b
  | .jint n => !(n == 0)
  | .jfloat m _ => !(m == 0)
  | .jstr s => !s.isEmpty
  | .jarr xs => !xs.isEmpty
  | .jobj kvs => !kvs.isEmpty
  | .jother _ => true

/-- Truthiness of `responses.get(key)`: `None` (absent key) is falsy. -/
def pyTruthyO : Option JVal → Bool
  | none => false
  | some v => pyTruthy v

/-- Decimal rendering of an integer (used by `str(...)` on ints). -/
def intStr (i : Int) : List Char :=
  if i < 0 then '-' :: Nat.toDigits 10 i.natAbs else Nat.toDigits 10 i.natAbs

/-- `", "`-join used by Python container reprs. -/
def joinComma (ls : List (List Char)) : List Char :=
  List.intercalate (',' :: ' ' :: []) ls

/-- Python `repr(val)` for JSON-derived values (string quoting without escape
handling, which the program's data never needs). -/
def pyRepr : JVal → List Char
  | .jnull => "None".toList
  | .jbool true => "True".toList
  | .jbool false => "False".toList
  | .jint n => intStr n
  | .jfloat m e => intStr m ++ 'e' :: intStr e
  | .jstr s => '\x27' :: (s ++ ['\x27'])
  | .jarr xs =>
    '[' :: (joinComma (xs.attach.map (fun x => pyRepr x.1)) ++ [']'])
  | .jobj kvs =>
    '{' :: (joinComma (kvs.attach.map
      (fun kv => '\x27' :: (kv.1.1 ++ ('\x27' :: ':' :: ' ' :: pyRepr kv.1.2)))) ++ ['}'])
  | .jother _ => "<object>".toList
termination_by v => sizeOf v
decreasing_by
  · have h1 : sizeOf x.1 < sizeOf xs := List.sizeOf_lt_of_mem x.2
    simp only [JVal.jarr.sizeOf_spec]
    omega
  · rcases kv with ⟨⟨a, b⟩, hmem⟩
    have h1 : sizeOf (a, b) < sizeOf kvs := List.sizeOf_lt_of_mem hmem
    simp only [JVal.jobj.sizeOf_spec, Prod.mk.sizeOf_spec] at h1 ⊢
    omega

/-- Python `str(val)`: identity on strings, `repr` otherwise (matches `str`
on every value class the program renders). -/
def pyStr : JVal → List Char
  | .jstr s => s
  | v => pyRepr v

/-- JSON insignificant whitespace. -/
def jskip (s : List Char) : List Char :=
  s.dropWhile (fun c => c == ' ' || c == '\t' || c == '\n' || c == '\r')

/-- Decimal digit test for the JSON number grammar. -/
def isJDigit (c : Char) : Bool := '0' ≤ c && c ≤ '9'

/-- Fold a digit run into a natural number. -/
def digitsToNat (ds : List Char) : Nat :=
  ds.foldl (fun a c => a * 10 + (c.toNat - '0'.toNat)) 0

/-- Parse the remainder of a JSON string literal (after the opening quote).
Common escapes are mapped; `\uXXXX` and other escapes the program's data
never contains are rejected. -/
def parseStrRest : List Char → Option (List Char × List Char)
  | [] => none
  | '"' :: r => some ([], r)
  | '\\' :: e :: r =>
    (match e with
     | '"' => some '"'
     | '\\' => some '\\'
     | '/' => some '/'
     | 'n' => some '\n'
     | 't' => some '\t'
     | 'r' => some '\r'
     | 'b' => some '\x08'
     | 'f' => some '\x0c'
     | _ => none).bind
      (fun c => (parseStrRest r).map
        (fun p : List Char × List Char => (c :: p.1, p.2)))
  | c :: r =>
    (parseStrRest r).map (fun p : List Char × List Char => (c :: p.1, p.2))
termination_by l => l.length
decreasing_by
  · simp only [List.length_cons]; omega
  · simp only [List.length_cons]; omega

/-- Parse a JSON number.  Integers (no fraction, no exponent) become `jint`;
otherwise the mantissa digits and a base-10 exponent are kept as the `jfloat`
payload.  Leading zeros are rejected as in strict JSON. -/
def parseNum (s : List Char) : Option (JVal × List Char) :=
  let (neg, s1) := match s with
    | '-' :: r => (true, r)
    | _ => (false, s)
  let ds := s1.takeWhile isJDigit
  let r1 := s1.drop ds.length
  if ds.isEmpty then none
  else if ds.length > 1 ∧ ds.head? = some '0' then none
  else
    let intPart : Int := Int.ofNat (digitsToNat ds)
    let signed : Int := if neg then -intPart else intPart
    match r1 with
    | '.' :: r2 =>
      let fs := r2.takeWhile isJDigit
      let r3 := r2.drop fs.length
      if fs.isEmpty then none
      else
        let mant : Int :=
          (if neg then -1 else 1) * Int.ofNat (digitsToNat (ds ++ fs))
        (match r3 with
         | 'e' :: r4 => parseExp mant (-(Int.ofNat fs.length)) r4
         | 'E' :: r4 => parseExp mant (-(Int.ofNat fs.length)) r4
         | _ => some (JVal.jfloat mant (-(Int.ofNat fs.length)), r3))
    | 'e' :: r2 => parseExp signed 0 r2
    | 'E' :: r2 => parseExp signed 0 r2
    | _ => some (JVal.jint signed, r1)
where
  /-- Parse the exponent suffix of a JSON number. -/
  parseExp (mant exp0 : Int) (r : List Char) : Option (JVal × List Char) :=
    let (eneg, r1) := match r with
      | '-' :: t => (true, t)
      | '+' :: t => (false, t)
      | _ => (false, r)
    let es := r1.takeWhile isJDigit
    if es.isEmpty then none
    else
      let e : Int := Int.ofNat (digitsToNat es)
      some (JVal.jfloat mant (exp0 + if eneg then -e else e), r1.drop es.length)

mutual

/-- Recursive-descent JSON value parser (models `json.loads` at the
program's boundary).  The fuel bounds the call depth; the driver supplies
more fuel than any input of its length can use.  Returns the value and the
remaining input. -/
def parseVal (fu : Nat) (s : List Char) : Option (JVal × List Char) :=
  if fu = 0 then none
  else
    match s with
    | [] => none
    | '{' :: cs =>
      (match jskip cs with
       | '}' :: r => some (JVal.jobj [], r)
       | cs2 => parseObjItems (fu - 1) cs2 [])
    | '[' :: cs =>
      (match jskip cs with
       | ']' :: r => some (JVal.jarr [], r)
       | cs2 => parseArrItems (fu - 1) cs2 [])
    | '"' :: cs => (parseStrRest cs).map (fun p => (JVal.jstr p.1, p.2))
    | 't' :: cs =>
      if ('r' :: 'u' :: 'e' :: []).isPrefixOf cs then some (JVal.jbool true, cs.drop 3) else none
    | 'f' :: cs =>
      if ('a' :: 'l' :: 's' :: 'e' :: []).isPrefixOf cs then some (JVal.jbool false, cs.drop 4) else none
    | 'n' :: cs =>
      if ('u' :: 'l' :: 'l' :: []).isPrefixOf cs then some (JVal.jnull, cs.drop 3) else none
    | _ => parseNum s
termination_by fu
decreasing_by all_goals omega

/-- Parse `"key": value (", " ...)* "}"`, the members of a JSON object.
A comma must be followed by another member, so a trailing comma fails. -/
def parseObjItems (fu : Nat) (s : List Char) (acc : List (List Char × JVal)) :
    Option (JVal × List Char) :=
  if fu = 0 then none
  else
    match s with
    | '"' :: cs =>
      (parseStrRest cs).bind (fun kp =>
        match jskip kp.2 with
        | ':' :: r2 =>
          (parseVal (fu - 1) (jskip r2)).bind (fun vp =>
            let acc2 := acc ++ [(kp.1, vp.1)]
            match jskip vp.2 with
            | ',' :: r3 => parseObjItems (fu - 1) (jskip r3) acc2
            | '}' :: r3 => some (JVal.jobj (pyDict acc2), r3)
            | _ => none)
        | _ => none)
    | _ => none
termination_by fu
decreasing_by all_goals omega

/-- Parse `value (", " ...)* "]"`, the elements of a JSON array. -/
def parseArrItems (fu : Nat) (s : List Char) (acc : List JVal) :
    Option (JVal × List Char) :=
  if fu = 0 then none
  else
    (parseVal (fu - 1) s).bind (fun vp =>
      match jskip vp.2 with
      | ',' :: r2 => parseArrItems (fu - 1) (jskip r2) (acc ++ [vp.1])
      | ']' :: r2 => some (JVal.jarr (acc ++ [vp.1]), r2)
      | _ => none)
termination_by fu
decreasing_by all_goals omega

end

/-- `json.loads`: parse one value and require only whitespace afterwards. -/
def pyJsonLoads (s : List Char) : Option JVal :=
  match parseVal (s.length + 16) (jskip s) with
  | some (v, r) => if jskip r = [] then some v else none
  | none => none

/-- The Response Example Table: key `"METHOD NORMALIZED_URL"` to parsed value. -/
abbrev Table : Type := List (List Char × JVal)

/-- Python `responses.get(key)`; tables built by `pyDictInsert` have unique
keys, so the first match is the binding. -/
def dictGet (k : List Char) (t : Table) : Option JVal :=
  (List.find? (fun p => p.1 == k) t).map (fun p => p.2)

/-- The scanner state: `current_method`/`current_url`, both `None` until the
first endpoint header line (they are always assigned together). -/
abbrev StateK : Type := Option (List Char × List Char)

/-- The f-string `f"{current_method} {current_url}"`; `str(None)` is `"None"`. -/
def keyOfState : StateK → List Char
  | none => "None None".toList
  | some mu => mu.1 ++ ' ' :: mu.2

/-- Recording one collected response block (source lines 125-131): parse the
joined text as JSON; on success store it under the current key, on failure
leave the table unchanged (`except: pass`). -/
def recordResponse (st : StateK) (txt : List Char) (tbl : Table) : Table :=
  match pyJsonLoads txt with
  | some v => pyDictInsert tbl (keyOfState st, v)
  | none => tbl

/-- Does a stripped line start one of the five recognized endpoint headers? -/
def isHeaderLine (s : List Char) : Bool :=
  ("GET /".toList).isPrefixOf s || ("POST /".toList).isPrefixOf s ||
    ("PUT /".toList).isPrefixOf s || ("DELETE /".toList).isPrefixOf s ||
    ("PATCH /".toList).isPrefixOf s

/-- Python `line.split(' ', 1)` for a line containing a space: the text
before the first space and the text after it. -/
def splitFirstSpace (s : List Char) : List Char × List Char :=
  (s.takeWhile (fun c => c ≠ ' '), (s.dropWhile (fun c => c ≠ ' ')).drop 1)

/-- The inner lookahead loop of `parse_markdown_responses` (source lines
113-135): skip lines until a ```json opener, collect lines verbatim until a
closing fence, then record the block and return the lines after the fence.
Reaching end of input without a closing fence records nothing. -/
def scanInner (st : StateK) (tbl : Table) :
    List (List Char) → Bool → List (List Char) → Table × List (List Char)
  | [], _, _ => (tbl, [])
  | l :: ls, found, acc =>
    if ("```json".toList).isPrefixOf (pyStrip l) then
      scanInner st tbl ls true acc
    else if ("```".toList).isPrefixOf (pyStrip l) ∧ found = true then
      (recordResponse st (List.intercalate ['\n'] acc) tbl, ls)
    else if found = true then
      scanInner st tbl ls found (acc ++ [l])
    else
      scanInner st tbl ls found acc

/-- The outer loop of `parse_markdown_responses` (source lines 98-138): track
the most recent endpoint header, and on a `**Response` marker run the inner
lookahead and resume after the consumed lines. -/
def scanOuter : List (List Char) → StateK → Table → Table
  | [], _, tbl => tbl
  | ln :: rest, st, tbl =>
    let s := pyStrip ln
    let st2 : StateK :=
      if isHeaderLine s then
        if (s.dropWhile (fun c => c ≠ ' ')) = [] then st
        else some ((splitFirstSpace s).1, normalize_path (splitFirstSpace s).2)
      else st
    if containsSub ("**Response".toList) s then
      scanOuter (scanInner st2 tbl rest false []).2 st2 (scanInner st2 tbl rest false []).1
    else
      scanOuter rest st2 tbl
termination_by ls => ls.length
decreasing_by
  · have key : ∀ (st3 : StateK) (ls : List (List Char)) (found : Bool)
        (acc : List (List Char)),
        (scanInner st3 tbl ls found acc).2.length ≤ ls.length := by
      intro st3 ls
      induction ls with
      | nil => intro found acc; simp [scanInner]
      | cons l ls ih =>
        intro found acc
        rw [scanInner]
        split
        · exact Nat.le_succ_of_le (ih true acc)
        · split
          · exact Nat.le_succ ls.length
          · split
            · exact Nat.le_succ_of_le (ih found (acc ++ [l]))
            · exact Nat.le_succ_of_le (ih found acc)
    simp only [List.length_cons]
    exact Nat.lt_succ_of_le (key _ rest false [])
  · simp only [List.length_cons]; omega

/-- `parse_markdown_responses` (source lines 76-140), over the document's
list of lines (`content.split('\n')`). -/
def parse_markdown_responses (ls : List (List Char)) : Table :=
  scanOuter ls none []

/-- Request-body extraction (source lines 56-61): a raw body string that
parses as JSON is stored structured, otherwise the raw string is kept. -/
def parseBodyRaw (raw : List Char) : Sum JVal (List Char) :=
  match pyJsonLoads raw with
  | some v => Sum.inl v
  | none => Sum.inr raw

/-- An Endpoint Descriptor as built by `parse_postman` (source lines 63-71). -/
structure Endpoint where
  ename : List Char
  folder : List Char
  method : List Char
  url : List Char
  normalized_url : List Char
  request_body : Option (Sum JVal (List Char))
  descr : List Char

/-- Endpoint construction (source lines 63-71): the normalized URL is always
`normalize_path` of the raw URL. -/
def mkEndpoint (name folder method url : List Char)
    (body : Option (Sum JVal (List Char))) (descr : List Char) : Endpoint :=
  ⟨name, folder, method, url, normalize_path url, body, descr⟩

/-- One CSV data row (columns of source line 189, minus the header row). -/
structure Row where
  routeName : List Char
  rmethod : List Char
  rurl : List Char
  varName : List Char
  varType : List Char
  exVal : List Char
  source : List Char
deriving DecidableEq

/-- The lookup key `f"{method} {norm_url}"` of source line 197. -/
def keyOf (ep : Endpoint) : List Char :=
  ep.method ++ ' ' :: ep.normalized_url

/-- The guard `ep['request_body'] and isinstance(ep['request_body'], dict)`
of source line 205: truthiness is evaluated first, so an empty dict body
fails the guard. -/
def isBodyTruthyDict (ep : Endpoint) : Bool :=
  match ep.request_body with
  | some (Sum.inl (JVal.jobj kvs)) => !kvs.isEmpty
  | _ => false

/-- The structured request-body value, when the body parsed as JSON. -/
def bodyVal (ep : Endpoint) : Option JVal :=
  match ep.request_body with
  | some (Sum.inl v) => some v
  | _ => none

/-- Source tag `"API Docs"`. -/
def srcDocs : List Char := "API Docs".toList

/-- Source tag `"Inferred from Request"`. -/
def srcInferred : List Char := "Inferred from Request".toList

/-- Source tag `"No Example"`. -/
def srcNoExample : List Char := "No Example".toList

/-- Lines 197-209 of `main`: look up the documented response; when the lookup
result is falsy (absent key, or a falsy documented value such as `\x7b\x7d`),
fall back to a truthy dict request body, else to "No Example". -/
def chosenOf (ep : Endpoint) (tbl : Table) : Option JVal × List Char :=
  let r0 := dictGet (keyOf ep) tbl
  if pyTruthyO r0 then (r0, srcDocs)
  else if isBodyTruthyDict ep then (bodyVal ep, srcInferred)
  else (r0, srcNoExample)

/-- One flattened-field data row (source line 215). -/
def mkDataRow (ep : Endpoint) (k : List Char) (v : JVal) (src : List Char) : Row :=
  ⟨ep.ename, ep.method, ep.url, k, get_type_name v, (pyStr v).take 100, src⟩

/-- Row emission (source lines 211-219): a truthy dict/list example yields one
row per flattened field, a truthy scalar yields the single `response` row, and
anything else yields the `N/A` row. -/
def emitRows (ep : Endpoint) (rd : Option JVal) (src : List Char) : List Row :=
  match rd with
  | some v =>
    if pyTruthy v then
      match v with
      | JVal.jobj _ =>
        (flatten_json v []).map (fun kv => mkDataRow ep kv.1 kv.2 src)
      | JVal.jarr _ =>
        (flatten_json v []).map (fun kv => mkDataRow ep kv.1 kv.2 src)
      | _ =>
        [⟨ep.ename, ep.method, ep.url, "response".toList, get_type_name v,
          (pyStr v).take 100, src⟩]
    else
      [⟨ep.ename, ep.method, ep.url, "N/A".toList, "N/A".toList, "N/A".toList, src⟩]
  | none =>
    [⟨ep.ename, ep.method, ep.url, "N/A".toList, "N/A".toList, "N/A".toList, src⟩]

/-- The data rows `main` writes for one endpoint (source lines 191-219). -/
def rowsFor (ep : Endpoint) (tbl : Table) : List Row :=
  emitRows ep (chosenOf ep tbl).1 (chosenOf ep tbl).2

/-- No tail of `l` matches the double-brace pattern, i.e. `l` contains no
`\x7b\x7bname\x7d\x7d` placeholder (with a nonempty brace-free name). -/
def noMatchTailsB (l : List Char) : Bool :=
  l.tails.all (fun t => !matchB t)

/-- Every colon in `l` is immediately followed by `/` or ends the string,
i.e. `l` contains no `:name` parameter (with a nonempty name). -/
def colonOKB : List Char → Bool
  | [] => true
  | c :: rest =>
    ((!(c == ':')) ||
      (match rest with
       | [] => true
       | d :: _ => d == '/')) && colonOKB rest

/-- The five stripped base-URL/version literals of `normalize_path`. -/
def theLits : List (List Char) := [litBase, litLocal, litStaging, litHost, litApi]

/-- The documentation document of the end-to-end scenario: header
`GET /users/:id`, a `**Response:**` marker, and a fenced JSON object. -/
def docC6 : List (List Char) :=
  ["GET /users/:id".toList, "**Response:**".toList, "```json".toList,
   "\x7b\"id\": 1, \"name\": \"Ann\"\x7d".toList, "```".toList]

/-- The collection endpoint of the end-to-end scenario. -/
def epC6 : Endpoint :=
  mkEndpoint "Get User".toList [] "GET".toList
    "\x7b\x7bbaseUrl\x7d\x7d/users/\x7b\x7buserId\x7d\x7d".toList none []

/-- A documentation document whose response block comes before any header. -/
def docC10 : List (List Char) :=
  ["**Response:**".toList, "```json".toList, "\x7b\"ok\": true\x7d".toList, "```".toList]

/-- A table documenting `GET /x` with an empty object. -/
def tblC1 : Table := [("GET /x".toList, JVal.jobj [])]

/-- An endpoint for `GET /x` carrying a parsed JSON request body. -/
def epC1 : Endpoint :=
  mkEndpoint "EP".toList [] "GET".toList "/x".toList
    (some (Sum.inl (JVal.jobj [("a".toList, JVal.jint 1)]))) []

/-- A table documenting `GET /x` with a truthy object whose only value is an
empty object, so its flattening is empty. -/
def tblC5 : Table := [("GET /x".toList, JVal.jobj [("a".toList, JVal.jobj [])])]

/-- An endpoint for `GET /x` with no request body. -/
def epC5 : Endpoint := mkEndpoint "EP".toList [] "GET".toList "/x".toList none []

/-- A table documenting `GET /x` with a truthy non-empty object. -/
def tblC1w : Table := [("GET /x".toList, JVal.jobj [("b".toList, JVal.jint 2)])]

/-- The flattening example of the spec:
`\x7b"a": \x7b"b": 1\x7d, "c": [1,2,3], "d": []\x7d`. -/
def exC8 : JVal :=
  JVal.jobj [("a".toList, JVal.jobj [("b".toList, JVal.jint 1)]),
    ("c".toList, JVal.jarr [JVal.jint 1, JVal.jint 2, JVal.jint 3]),
    ("d".toList, JVal.jarr [])]

/-! ### Helper lemmas: the regex-substitution embedding -/

theorem pB_true {c : Char} : pB c = true ↔ c ≠ '}' := by simp [pB]

theorem isPrefixOf_ex (p l : List Char) : p.isPrefixOf l = true ↔ ∃ t, l = p ++ t := by
  induction p generalizing l with
  | nil => simp
  | cons a as ih =>
    cases l with
    | nil => simp
    | cons b bs =>
      rw [List.isPrefixOf_cons₂, Bool.and_eq_true, beq_iff_eq, ih]
      constructor
      · rintro ⟨rfl, t, rfl⟩; exact ⟨t, rfl⟩
      · rintro ⟨t, ht⟩
        rw [List.cons_append, List.cons.injEq] at ht
        obtain ⟨rfl, rfl⟩ := ht
        exact ⟨rfl, t, rfl⟩

theorem tw_app {p : Char → Bool} (m : List Char) {c : Char} (v : List Char)
    (hm : ∀ x ∈ m, p x = true) (hc : p c = false) :
    (m ++ c :: v).takeWhile p = m := by
  rw [List.takeWhile_append_of_pos hm,
    List.takeWhile_cons_of_neg (by simp [hc]), List.append_nil]

theorem dw_app {p : Char → Bool} (m : List Char) {c : Char} (v : List Char)
    (hm : ∀ x ∈ m, p x = true) (hc : p c = false) :
    (m ++ c :: v).dropWhile p = c :: v := by
  rw [List.dropWhile_append_of_pos hm, List.dropWhile_cons_of_neg (by simp [hc])]

theorem mB_iff (l : List Char) :
    matchB l = true ↔
      ∃ m v, l = '{' :: '{' :: (m ++ '}' :: '}' :: v) ∧ m ≠ [] ∧ ∀ x ∈ m, x ≠ '}' := by
  constructor
  · intro h
    rw [matchB.eq_def] at h
    split at h
    · rename_i rest
      rw [Bool.and_eq_true] at h
      obtain ⟨h1, h2⟩ := h
      rw [almostB, isPrefixOf_ex] at h2
      obtain ⟨t, ht⟩ := h2
      refine ⟨rest.takeWhile pB, t, ?_, ?_, ?_⟩
      · have hsp : rest.takeWhile pB ++ rest.dropWhile pB = rest := by simp
        rw [ht] at hsp
        simp only [List.cons.injEq, true_and]
        conv_lhs => rw [← hsp]
        simp
      · intro hm
        rw [hm] at h1
        simp at h1
      · intro x hx
        exact pB_true.mp (List.mem_takeWhile_imp hx)
    · exact absurd h (by simp)
  · rintro ⟨m, v, rfl, hm, hmem⟩
    have hpm : ∀ x ∈ m, pB x = true := fun x hx => pB_true.mpr (hmem x hx)
    have hpc : pB '}' = false := by simp [pB]
    rw [matchB, Bool.and_eq_true]
    constructor
    · rw [tw_app m ('}' :: v) hpm hpc]
      simp [hm]
    · rw [almostB, dw_app m ('}' :: v) hpm hpc]
      simp [List.isPrefixOf_cons₂]

theorem matchB_first {a : Char} {T : List Char} (h : matchB (a :: T) = true) :
    a = '{' := by
  obtain ⟨m, v, he, -, -⟩ := (mB_iff _).mp h
  injection he with h1 h2

theorem matchB_len {l : List Char} (h : matchB l = true) : 5 ≤ l.length := by
  obtain ⟨m, v, rfl, hm, -⟩ := (mB_iff _).mp h
  rcases m with - | ⟨x, m⟩
  · exact absurd rfl hm
  · simp [List.length_append]
    omega

theorem matchB_append {l ext : List Char} (h : matchB l = true) :
    matchB (l ++ ext) = true := by
  obtain ⟨m, v, rfl, hm, hmem⟩ := (mB_iff _).mp h
  refine (mB_iff _).mpr ⟨m, v ++ ext, ?_, hm, hmem⟩
  simp

theorem braceSub_nil_iff (l : List Char) : braceSub l = [] ↔ l = [] := by
  cases l with
  | nil => simp [braceSub]
  | cons c cs =>
    cases cs with
    | nil => simp [braceSub]
    | cons d rest =>
      simp only [braceSub]
      split
      · simp [pParam]
      · simp

theorem braceSub_head (l : List Char) : (braceSub l).head? = l.head? := by
  cases l with
  | nil => simp [braceSub]
  | cons c cs =>
    cases cs with
    | nil => simp [braceSub]
    | cons d rest =>
      simp only [braceSub]
      split
      · rename_i hmatch
        rw [matchB_first hmatch]
        simp [pParam]
      · simp

theorem almost_cons_ne {c : Char} (x : List Char) (hc : c ≠ '}') :
    almostB (c :: x) = almostB x := by
  simp [almostB, List.dropWhile_cons_of_pos (pB_true.mpr hc)]

theorem brace_head_iff (x : List Char) :
    ['}'].isPrefixOf x = true ↔ x.head? = some '}' := by
  cases x with
  | nil => simp
  | cons c T =>
    rw [List.isPrefixOf_cons₂]
    simp only [List.isPrefixOf_nil_left, Bool.and_true, beq_iff_eq, List.head?_cons,
      Option.some.injEq]
    exact ⟨fun h => h.symm, fun h => h.symm⟩

theorem almost_cons_brace (x : List Char) :
    almostB ('}' :: x) = ['}'].isPrefixOf x := by
  have hd : List.dropWhile pB ('}' :: x) = '}' :: x :=
    List.dropWhile_cons_of_neg (by simp [pB])
  rw [almostB, hd, List.isPrefixOf_cons₂]
  simp

theorem tw_isEmpty_head (p : Char → Bool) (l : List Char) :
    ((l.takeWhile p).isEmpty = false) ↔ ∃ c, l.head? = some c ∧ p c = true := by
  cases l with
  | nil => simp
  | cons c T =>
    rw [List.takeWhile_cons]
    by_cases hp : p c = true
    · simp [hp]
    · simp [hp]

theorem almost_braceSub (l : List Char) (h : almostB (braceSub l) = true) :
    almostB l = true := by
  induction l using braceSub.induct with
  | case1 => simpa [braceSub] using h
  | case2 c => simpa [braceSub] using h
  | case3 c d rest hmatch ih =>
    obtain ⟨m, v, he, hm, hmem⟩ := (mB_iff _).mp hmatch
    injection he with h1 he
    injection he with h2 he
    subst h1; subst h2; subst he
    rw [almost_cons_ne _ (by decide), almost_cons_ne _ (by decide),
      almostB, dw_app m _ (fun x hx => pB_true.mpr (hmem x hx)) (by simp [pB])]
    simp [List.isPrefixOf_cons₂]
  | case4 c d rest hmatch ih =>
    simp only [braceSub] at h
    rw [if_neg hmatch] at h
    by_cases hc : c = '}'
    · subst hc
      rw [almost_cons_brace, brace_head_iff, braceSub_head] at h
      rw [almost_cons_brace, brace_head_iff]
      exact h
    · rw [almost_cons_ne _ hc] at h
      rw [almost_cons_ne _ hc]
      exact ih h

theorem mB2_braceSub (w : List Char)
    (h : matchB ('{' :: '{' :: braceSub w) = true) :
    matchB ('{' :: '{' :: w) = true := by
  rw [matchB, Bool.and_eq_true] at h ⊢
  obtain ⟨h1, h2⟩ := h
  rw [Bool.not_eq_true', tw_isEmpty_head] at h1 ⊢
  constructor
  · obtain ⟨c, hc, hpc⟩ := h1
    exact ⟨c, braceSub_head w ▸ hc, hpc⟩
  · exact almost_braceSub w h2

theorem brace_refl (y : List Char) (h : matchB ('{' :: braceSub y) = true) :
    matchB ('{' :: y) = true := by
  cases y with
  | nil =>
    rw [show braceSub [] = [] from by simp [braceSub]] at h
    have := matchB_len h
    simp at this
  | cons c ys =>
    have hc : c = '{' := by
      obtain ⟨m, v, he, -, -⟩ := (mB_iff _).mp h
      injection he with h1 he2
      have hh := braceSub_head (c :: ys)
      rw [he2] at hh
      simp at hh
      exact hh.symm
    subst hc
    cases ys with
    | nil =>
      rw [show braceSub ['{'] = ['{'] from by simp [braceSub]] at h
      have := matchB_len h
      simp at this
    | cons d ys2 =>
      by_cases hm : matchB ('{' :: d :: ys2) = true
      · obtain ⟨m, v, he, hmne, hmem⟩ := (mB_iff _).mp hm
        injection he with h1 he
        injection he with h2 he
        subst h2; subst he
        refine (mB_iff _).mpr ⟨'{' :: m, v, ?_, by simp, ?_⟩
        · simp
        · intro x hx
          rcases List.mem_cons.mp hx with rfl | hx2
          · decide
          · exact hmem x hx2
      · rw [show braceSub ('{' :: d :: ys2) = '{' :: braceSub (d :: ys2) from by
            simp only [braceSub]; rw [if_neg hm]] at h
        exact mB2_braceSub (d :: ys2) h

theorem mC_iff (l : List Char) :
    matchC l = true ↔ ∃ e t, l = ':' :: e :: t ∧ e ≠ '/' := by
  constructor
  · intro h
    rw [matchC.eq_def] at h
    split at h
    · rename_i e t
      exact ⟨e, t, rfl, by simpa using h⟩
    · exact absurd h (by simp)
  · rintro ⟨e, t, rfl, he⟩
    simp [matchC, he]

theorem colonSub_nil_iff (l : List Char) : colonSub l = [] ↔ l = [] := by
  cases l with
  | nil => simp [colonSub]
  | cons c cs =>
    simp only [colonSub]
    split
    · simp [pParam]
    · simp

theorem colonSub_head_brace (l : List Char) :
    (colonSub l).head? = some '}' ↔ l.head? = some '}' := by
  cases l with
  | nil => simp [colonSub]
  | cons c cs =>
    simp only [colonSub]
    split
    · rename_i hm
      obtain ⟨e, t, he, -⟩ := (mC_iff _).mp hm
      injection he with h1 h2
      subst h1
      simp [pParam]
    · simp

theorem pParam_dropWhile (Z : List Char) :
    List.dropWhile pB (pParam ++ Z) = '}' :: Z := by
  simp [pParam, pB]

theorem dwC_not_brace (x : List Char) :
    ¬ (x.dropWhile pC).head? = some '}' := by
  intro h
  have hh := List.head?_dropWhile_not pC x
  rw [h] at hh
  simp [pC] at hh

theorem almost_colonSub (l : List Char) (h : almostB (colonSub l) = true) :
    almostB l = true := by
  induction l using colonSub.induct with
  | case1 => simpa [colonSub] using h
  | case2 c cs hm ih =>
    obtain ⟨e, t, he, hne⟩ := (mC_iff _).mp hm
    injection he with h1 h2
    subst h1; subst h2
    simp only [colonSub, if_pos hm] at h
    rw [almostB, pParam_dropWhile] at h
    rw [List.isPrefixOf_cons₂] at h
    simp only [Bool.and_eq_true, beq_iff_eq] at h
    have := (brace_head_iff _).mp h.2
    exact absurd ((colonSub_head_brace _).mp this) (dwC_not_brace _)
  | case3 c cs hm ih =>
    simp only [colonSub, if_neg hm] at h
    by_cases hc : c = '}'
    · subst hc
      rw [almost_cons_brace, brace_head_iff, colonSub_head_brace] at h
      rw [almost_cons_brace, brace_head_iff]
      exact h
    · rw [almost_cons_ne _ hc] at h
      rw [almost_cons_ne _ hc]
      exact ih h

theorem tw_pB_isEmpty_iff (l : List Char) :
    ((l.takeWhile pB).isEmpty = false) ↔ (l ≠ [] ∧ l.head? ≠ some '}') := by
  cases l with
  | nil => simp
  | cons c T =>
    rw [List.takeWhile_cons]
    by_cases hp : pB c = true
    · simp only [hp, if_true, List.isEmpty_cons]
      have := pB_true.mp hp
      simp [this]
    · rw [if_neg hp]
      simp only [pB, ne_eq, decide_not] at hp
      simp at hp
      simp [hp]

theorem mB2_colonSub (w : List Char)
    (h : matchB ('{' :: '{' :: colonSub w) = true) :
    matchB ('{' :: '{' :: w) = true := by
  rw [matchB, Bool.and_eq_true] at h ⊢
  obtain ⟨h1, h2⟩ := h
  rw [Bool.not_eq_true', tw_pB_isEmpty_iff] at h1 ⊢
  constructor
  · constructor
    · intro hnil
      exact h1.1 (by rw [hnil]; simp [colonSub])
    · intro hhd
      exact h1.2 ((colonSub_head_brace w).mpr hhd)
  · exact almost_colonSub w h2

theorem colon_refl (y : List Char) (h : matchB ('{' :: colonSub y) = true) :
    matchB ('{' :: y) = true := by
  cases y with
  | nil =>
    rw [show colonSub [] = [] from by simp [colonSub]] at h
    have := matchB_len h
    simp at this
  | cons c ys =>
    by_cases hm : matchC (c :: ys) = true
    · obtain ⟨e, t, he, hne⟩ := (mC_iff _).mp hm
      injection he with h1 h2
      subst h1; subst h2
      rw [show colonSub (':' :: e :: t) = pParam ++ colonSub ((e :: t).dropWhile pC) from by
          simp only [colonSub, if_pos hm]] at h
      rw [show ('{' :: (pParam ++ colonSub ((e :: t).dropWhile pC))) =
          '{' :: '{' :: ('p' :: 'a' :: 'r' :: 'a' :: 'm' :: '}' ::
            colonSub ((e :: t).dropWhile pC)) from by simp [pParam]] at h
      rw [matchB, Bool.and_eq_true] at h
      obtain ⟨-, h2⟩ := h
      rw [show ('p' :: 'a' :: 'r' :: 'a' :: 'm' :: '}' ::
          colonSub ((e :: t).dropWhile pC)) =
          (['p', 'a', 'r', 'a', 'm'] ++ '}' :: colonSub ((e :: t).dropWhile pC)) from rfl,
        almostB, dw_app _ _ (by decide) (by simp [pB])] at h2
      rw [List.isPrefixOf_cons₂] at h2
      simp only [Bool.and_eq_true, beq_iff_eq] at h2
      have := (brace_head_iff _).mp h2.2
      exact absurd ((colonSub_head_brace _).mp this) (dwC_not_brace _)
    · have hc : c = '{' := by
        obtain ⟨m, v, he, -, -⟩ := (mB_iff _).mp h
        injection he with h1 he2
        have hh : (colonSub (c :: ys)).head? = some c := by
          rw [show colonSub (c :: ys) = c :: colonSub ys from by
            simp only [colonSub, if_neg hm]]
          simp
        rw [he2] at hh
        simp at hh
        exact hh.symm
      subst hc
      rw [show colonSub ('{' :: ys) = '{' :: colonSub ys from by
          simp only [colonSub, if_neg hm]] at h
      exact mB2_colonSub ys h

theorem nmt_cons (c : Char) (l : List Char) :
    noMatchTailsB (c :: l) = (!matchB (c :: l) && noMatchTailsB l) := by
  simp [noMatchTailsB, List.tails_cons]

theorem nmt_tail {c : Char} {l : List Char} (h : noMatchTailsB (c :: l) = true) :
    noMatchTailsB l = true := by
  rw [nmt_cons, Bool.and_eq_true] at h
  exact h.2

theorem nmt_head {c : Char} {l : List Char} (h : noMatchTailsB (c :: l) = true) :
    matchB (c :: l) = false := by
  rw [nmt_cons, Bool.and_eq_true] at h
  simpa using h.1

theorem matchB_false_of_ne {a : Char} (T : List Char) (hx : a ≠ '{') :
    matchB (a :: T) = false := by
  cases hmb : matchB (a :: T) with
  | false => rfl
  | true => exact absurd (matchB_first hmb) hx

theorem matchB_false_of_snd {a b : Char} (T : List Char) (hb : b ≠ '{') :
    matchB (a :: b :: T) = false := by
  cases hmb : matchB (a :: b :: T) with
  | false => rfl
  | true =>
    obtain ⟨m, v, he, -, -⟩ := (mB_iff _).mp hmb
    injection he with h1 he2
    injection he2 with h2 he3
    exact absurd h2 hb

theorem nmt_drop (l : List Char) (n : Nat) (h : noMatchTailsB l = true) :
    noMatchTailsB (l.drop n) = true := by
  induction n generalizing l with
  | zero => simpa using h
  | succ n ih =>
    cases l with
    | nil => simpa using h
    | cons c cs => exact ih cs (nmt_tail h)

theorem nmt_dropWhile (p : Char → Bool) (l : List Char) (h : noMatchTailsB l = true) :
    noMatchTailsB (l.dropWhile p) = true := by
  induction l with
  | nil => simpa using h
  | cons c cs ih =>
    rw [List.dropWhile_cons]
    split
    · exact ih (nmt_tail h)
    · exact h

theorem matchB_take {l : List Char} {n : Nat} (h : matchB (l.take n) = true) :
    matchB l = true := by
  conv_lhs => rw [← List.take_append_drop n l]
  exact matchB_append h

theorem nmt_take (l : List Char) (n : Nat) (h : noMatchTailsB l = true) :
    noMatchTailsB (l.take n) = true := by
  induction l generalizing n with
  | nil => simpa using h
  | cons c cs ih =>
    cases n with
    | zero =>
      rw [List.take_zero]
      decide
    | succ n =>
      rw [List.take_succ_cons, nmt_cons, Bool.and_eq_true, Bool.not_eq_true']
      refine ⟨?_, ih n (nmt_tail h)⟩
      cases hmb : matchB (c :: cs.take n) with
      | false => rfl
      | true =>
        have h2 : matchB ((c :: cs).take (n + 1)) = true := by
          rw [List.take_succ_cons]
          exact hmb
        have h3 := matchB_take h2
        rw [nmt_head h] at h3
        simp at h3

theorem dtw_eq_take (p : Char → Bool) (l : List Char) :
    ∃ n, dropTrailWhile p l = l.take n := by
  induction l with
  | nil => exact ⟨0, rfl⟩
  | cons c cs ih =>
    obtain ⟨n, hn⟩ := ih
    simp only [dropTrailWhile]
    split
    · exact ⟨0, rfl⟩
    · exact ⟨n + 1, by rw [hn, List.take_succ_cons]⟩

theorem nmt_dtw (p : Char → Bool) (l : List Char) (h : noMatchTailsB l = true) :
    noMatchTailsB (dropTrailWhile p l) = true := by
  obtain ⟨n, hn⟩ := dtw_eq_take p l
  rw [hn]
  exact nmt_take l n h

theorem nmt_pyStrip (l : List Char) (h : noMatchTailsB l = true) :
    noMatchTailsB (pyStrip l) = true :=
  nmt_dtw _ _ (nmt_dropWhile _ _ h)

theorem nmt_pParam_app (B : List Char) (h : noMatchTailsB B = true) :
    noMatchTailsB (pParam ++ B) = true := by
  rw [show pParam ++ B = '{' :: 'p' :: 'a' :: 'r' :: 'a' :: 'm' :: '}' :: B from rfl]
  rw [nmt_cons, nmt_cons, nmt_cons, nmt_cons, nmt_cons, nmt_cons, nmt_cons]
  simp only [Bool.and_eq_true, Bool.not_eq_true']
  exact ⟨matchB_false_of_snd _ (by decide), matchB_false_of_ne _ (by decide),
    matchB_false_of_ne _ (by decide), matchB_false_of_ne _ (by decide),
    matchB_false_of_ne _ (by decide), matchB_false_of_ne _ (by decide),
    matchB_false_of_ne _ (by decide), h⟩

theorem nmt_braceSub (l : List Char) : noMatchTailsB (braceSub l) = true := by
  induction l using braceSub.induct with
  | case1 =>
    rw [show braceSub [] = [] from by simp [braceSub]]
    decide
  | case2 c =>
    rw [show braceSub [c] = [c] from by simp [braceSub]]
    rw [nmt_cons, Bool.and_eq_true, Bool.not_eq_true']
    refine ⟨?_, by decide⟩
    cases hmb : matchB [c] with
    | false => rfl
    | true =>
      have := matchB_len hmb
      simp at this
  | case3 c d rest hmatch ih =>
    rw [show braceSub (c :: d :: rest) = pParam ++ braceSub ((rest.dropWhile pB).drop 2)
        from by simp only [braceSub, if_pos hmatch]]
    exact nmt_pParam_app _ ih
  | case4 c d rest hmatch ih =>
    rw [show braceSub (c :: d :: rest) = c :: braceSub (d :: rest) from by
      simp only [braceSub, if_neg hmatch]]
    rw [nmt_cons, Bool.and_eq_true, Bool.not_eq_true']
    refine ⟨?_, ih⟩
    by_cases hc : c = '{'
    · subst hc
      cases hmb : matchB ('{' :: braceSub (d :: rest)) with
      | false => rfl
      | true => exact absurd (brace_refl (d :: rest) hmb) hmatch
    · exact matchB_false_of_ne _ hc

theorem braceSub_id (l : List Char) (h : noMatchTailsB l = true) : braceSub l = l := by
  induction l using braceSub.induct with
  | case1 => simp [braceSub]
  | case2 c => simp [braceSub]
  | case3 c d rest hmatch ih =>
    rw [nmt_head h] at hmatch
    exact absurd hmatch (by simp)
  | case4 c d rest hmatch ih =>
    rw [show braceSub (c :: d :: rest) = c :: braceSub (d :: rest) from by
      simp only [braceSub, if_neg hmatch]]
    rw [ih (nmt_tail h)]

theorem nmt_colonSub (l : List Char) : noMatchTailsB l = true →
    noMatchTailsB (colonSub l) = true := by
  induction l using colonSub.induct with
  | case1 =>
    intro h
    rw [show colonSub [] = [] from by simp [colonSub]]
    decide
  | case2 c cs hm ih =>
    intro h
    rw [show colonSub (c :: cs) = pParam ++ colonSub (cs.dropWhile pC) from by
      simp only [colonSub, if_pos hm]]
    exact nmt_pParam_app _ (ih (nmt_dropWhile pC cs (nmt_tail h)))
  | case3 c cs hm ih =>
    intro h
    rw [show colonSub (c :: cs) = c :: colonSub cs from by
      simp only [colonSub, if_neg hm]]
    rw [nmt_cons, Bool.and_eq_true, Bool.not_eq_true']
    refine ⟨?_, ih (nmt_tail h)⟩
    by_cases hc : c = '{'
    · subst hc
      cases hmb : matchB ('{' :: colonSub cs) with
      | false => rfl
      | true =>
        have h2 := colon_refl cs hmb
        rw [nmt_head h] at h2
        simp at h2
    · exact matchB_false_of_ne _ hc

theorem cok_tail {c : Char} {l : List Char} (h : colonOKB (c :: l) = true) :
    colonOKB l = true := by
  simp only [colonOKB, Bool.and_eq_true] at h
  exact h.2

theorem matchC_false_of_ne {a : Char} (T : List Char) (ha : a ≠ ':') :
    matchC (a :: T) = false := by
  cases hmc : matchC (a :: T) with
  | false => rfl
  | true =>
    obtain ⟨e, t, he, -⟩ := (mC_iff _).mp hmc
    injection he with h1 h2
    exact absurd h1 ha

theorem cok_app {a : List Char} (b : List Char) (ha : ∀ x ∈ a, x ≠ ':')
    (hb : colonOKB b = true) : colonOKB (a ++ b) = true := by
  induction a with
  | nil => simpa using hb
  | cons x a ih =>
    rw [List.cons_append]
    simp only [colonOKB, Bool.and_eq_true]
    refine ⟨?_, ih (fun y hy => ha y (by simp [hy]))⟩
    have hx : x ≠ ':' := ha x (by simp)
    simp [hx]

theorem cok_colonSub (l : List Char) : colonOKB (colonSub l) = true := by
  induction l using colonSub.induct with
  | case1 => simp [colonSub, colonOKB]
  | case2 c cs hm ih =>
    rw [show colonSub (c :: cs) = pParam ++ colonSub (cs.dropWhile pC) from by
      simp only [colonSub, if_pos hm]]
    exact cok_app _ (by decide) ih
  | case3 c cs hm ih =>
    rw [show colonSub (c :: cs) = c :: colonSub cs from by
      simp only [colonSub, if_neg hm]]
    simp only [colonOKB, Bool.and_eq_true]
    refine ⟨?_, ih⟩
    by_cases hc : c = ':'
    · subst hc
      cases cs with
      | nil =>
        rw [show colonSub [] = [] from by simp [colonSub]]
        simp
      | cons e cs2 =>
        have he : e = '/' := by
          by_contra hne
          exact hm ((mC_iff _).mpr ⟨e, cs2, rfl, hne⟩)
        subst he
        rw [show colonSub ('/' :: cs2) = '/' :: colonSub cs2 from by
          simp only [colonSub]
          rw [if_neg (by rw [matchC_false_of_ne _ (by decide)]; simp)]]
        simp
    · simp [hc]

theorem colonSub_id (l : List Char) (h : colonOKB l = true) : colonSub l = l := by
  induction l using colonSub.induct with
  | case1 => simp [colonSub]
  | case2 c cs hm ih =>
    obtain ⟨e, t, he, hne⟩ := (mC_iff _).mp hm
    injection he with h1 h2
    subst h1; subst h2
    simp only [colonOKB, Bool.and_eq_true] at h
    have := h.1
    simp at this
    exact absurd this hne
  | case3 c cs hm ih =>
    rw [show colonSub (c :: cs) = c :: colonSub cs from by
      simp only [colonSub, if_neg hm]]
    rw [ih (cok_tail h)]

theorem cok_take (l : List Char) (n : Nat) (h : colonOKB l = true) :
    colonOKB (l.take n) = true := by
  induction l generalizing n with
  | nil => simpa using h
  | cons c cs ih =>
    cases n with
    | zero => simp [colonOKB]
    | succ n =>
      rw [List.take_succ_cons]
      simp only [colonOKB, Bool.and_eq_true] at h ⊢
      obtain ⟨h1, h2⟩ := h
      refine ⟨?_, ih n h2⟩
      cases cs with
      | nil => simp
      | cons d cs2 =>
        cases n with
        | zero => simp
        | succ m =>
          rw [List.take_succ_cons]
          exact h1

theorem cok_dropWhile (p : Char → Bool) (l : List Char) (h : colonOKB l = true) :
    colonOKB (l.dropWhile p) = true := by
  induction l with
  | nil => simpa using h
  | cons c cs ih =>
    rw [List.dropWhile_cons]
    split
    · exact ih (cok_tail h)
    · exact h

theorem cok_dtw (p : Char → Bool) (l : List Char) (h : colonOKB l = true) :
    colonOKB (dropTrailWhile p l) = true := by
  obtain ⟨n, hn⟩ := dtw_eq_take p l
  rw [hn]
  exact cok_take l n h

theorem cok_pyStrip (l : List Char) (h : colonOKB l = true) :
    colonOKB (pyStrip l) = true :=
  cok_dtw _ _ (cok_dropWhile _ _ h)

theorem cok_slash (l : List Char) (h : colonOKB l = true) :
    colonOKB ('/' :: l) = true := by
  simp only [colonOKB, Bool.and_eq_true]
  exact ⟨by simp, h⟩

theorem nmt_slash (l : List Char) (h : noMatchTailsB l = true) :
    noMatchTailsB ('/' :: l) = true := by
  rw [nmt_cons, Bool.and_eq_true, Bool.not_eq_true']
  exact ⟨matchB_false_of_ne _ (by decide), h⟩

theorem pySlash_cases (l : List Char) : pySlash l = l ∨ pySlash l = '/' :: l := by
  rw [pySlash.eq_def]
  split
  · exact Or.inl rfl
  · exact Or.inr rfl

theorem pySlash_head (l : List Char) : (pySlash l).head? = some '/' := by
  rw [pySlash.eq_def]
  split
  · simp
  · simp

theorem pySlash_id {l : List Char} (h : l.head? = some '/') : pySlash l = l := by
  cases l with
  | nil => simp at h
  | cons c cs =>
    simp at h
    subst h
    rfl

theorem pyStrip_slash_head (l : List Char) (h : l.head? = some '/') :
    (pyStrip l).head? = some '/' := by
  cases l with
  | nil => simp at h
  | cons c cs =>
    simp at h
    subst h
    rw [pyStrip, List.dropWhile_cons_of_neg (by decide)]
    simp only [dropTrailWhile]
    split
    · rename_i hsp
      exact absurd hsp.2 (by decide)
    · simp

theorem dtw_head (p : Char → Bool) (l : List Char) (c : Char)
    (hc : (dropTrailWhile p l).head? = some c) : l.head? = some c := by
  cases l with
  | nil => simp [dropTrailWhile] at hc
  | cons a cs =>
    simp only [dropTrailWhile] at hc
    split at hc
    · simp at hc
    · simp at hc ⊢
      exact hc

theorem dropWhile_eq_self (p : Char → Bool) (l : List Char)
    (h : ∀ c, l.head? = some c → p c = false) : l.dropWhile p = l := by
  cases l with
  | nil => rfl
  | cons c cs => exact List.dropWhile_cons_of_neg (by simp [h c rfl])

theorem dtw_idem (p : Char → Bool) (l : List Char) :
    dropTrailWhile p (dropTrailWhile p l) = dropTrailWhile p l := by
  induction l with
  | nil => rfl
  | cons c cs ih =>
    conv_lhs => rw [dropTrailWhile]
    conv_rhs => rw [dropTrailWhile]
    split
    · rfl
    · rename_i hcond
      conv_lhs => rw [dropTrailWhile]
      rw [ih]
      rw [if_neg hcond]

theorem pyStrip_idem (l : List Char) : pyStrip (pyStrip l) = pyStrip l := by
  conv_lhs => rw [pyStrip]
  rw [dropWhile_eq_self]
  · rw [pyStrip, dtw_idem]
  · intro c hc
    have h2 := dtw_head isPySpace (l.dropWhile isPySpace) c hc
    have h3 := List.head?_dropWhile_not isPySpace l
    rw [h2] at h3
    exact h3

theorem containsSub_cons (pat : List Char) (c : Char) (cs : List Char) :
    containsSub pat (c :: cs) = (pat.isPrefixOf (c :: cs) || containsSub pat cs) := by
  simp [containsSub, List.tails_cons]

theorem replaceAll_id (pat rep l : List Char) (h : containsSub pat l = false) :
    replaceAll pat rep l = l := by
  induction l with
  | nil => simp [replaceAll]
  | cons c cs ih =>
    rw [containsSub_cons] at h
    simp only [Bool.or_eq_false_iff] at h
    rw [show replaceAll pat rep (c :: cs) = c :: replaceAll pat rep cs from by
      simp only [replaceAll]
      rw [if_neg (by simp [h.1])]]
    rw [ih h.2]

theorem np_resid (l : List Char) :
    noMatchTailsB (normalize_path l) = true ∧ colonOKB (normalize_path l) = true ∧
      (normalize_path l).head? = some '/' := by
  rw [normalize_path]
  have h1 : noMatchTailsB (colonSub (braceSub (stripLiterals l))) = true :=
    nmt_colonSub _ (nmt_braceSub _)
  have h2 : colonOKB (colonSub (braceSub (stripLiterals l))) = true :=
    cok_colonSub _
  have h3 : noMatchTailsB (pySlash (colonSub (braceSub (stripLiterals l)))) = true := by
    rcases pySlash_cases (colonSub (braceSub (stripLiterals l))) with hs | hs <;> rw [hs]
    · exact h1
    · exact nmt_slash _ h1
  have h4 : colonOKB (pySlash (colonSub (braceSub (stripLiterals l)))) = true := by
    rcases pySlash_cases (colonSub (braceSub (stripLiterals l))) with hs | hs <;> rw [hs]
    · exact h2
    · exact cok_slash _ h2
  exact ⟨nmt_pyStrip _ h3, cok_pyStrip _ h4, pyStrip_slash_head _ (pySlash_head _)⟩

/-- Claim C2 (amended): `normalize_path` is idempotent on every input whose
normalized output contains none of the five stripped base-URL/version
literals.  (Unrestricted idempotency fails: removing one literal occurrence
can splice together a new one, see the counterexample.) -/
theorem claim_C2_amended (l : List Char)
    (h1 : containsSub litBase (normalize_path l) = false)
    (h2 : containsSub litLocal (normalize_path l) = false)
    (h3 : containsSub litStaging (normalize_path l) = false)
    (h4 : containsSub litHost (normalize_path l) = false)
    (h5 : containsSub litApi (normalize_path l) = false) :
    normalize_path (normalize_path l) = normalize_path l := by
  obtain ⟨hn, hc, hh⟩ := np_resid l
  have hlit : stripLiterals (normalize_path l) = normalize_path l := by
    rw [stripLiterals, replaceAll_id _ _ _ h1, replaceAll_id _ _ _ h2,
      replaceAll_id _ _ _ h3, replaceAll_id _ _ _ h4, replaceAll_id _ _ _ h5]
  conv_lhs => rw [normalize_path]
  rw [hlit, braceSub_id _ hn, colonSub_id _ hc, pySlash_id hh, normalize_path,
    pyStrip_idem]

/-- Claim C2 counterexample: `normalize_path` is not idempotent.  On
`/api/api/v1/v1` the literal-stripping step removes the middle `/api/v1` and
splices together a fresh `/api/v1`, which the second application then strips
to `/`. -/
theorem claim_C2_counterexample :
    (normalize_path (normalize_path "/api/api/v1/v1".toList) ==
      normalize_path "/api/api/v1/v1".toList) = false := by
  have ha : normalize_path "/api/api/v1/v1".toList = "/api/v1".toList := by
    simp [normalize_path, stripLiterals, replaceAll, litBase, litLocal, litStaging,
      litHost, litApi, braceSub, colonSub, matchB, matchC, almostB, pB, pC, pParam,
      pySlash, pyStrip, dropTrailWhile, isPySpace, List.isPrefixOf]
  have hb : normalize_path "/api/v1".toList = "/".toList := by
    simp [normalize_path, stripLiterals, replaceAll, litBase, litLocal, litStaging,
      litHost, litApi, braceSub, colonSub, matchB, matchC, almostB, pB, pC, pParam,
      pySlash, pyStrip, dropTrailWhile, isPySpace, List.isPrefixOf]
  rw [ha, hb]
  decide

/-- Claim C2 witness: the amended idempotency applied at
`\x7b\x7bbaseUrl\x7d\x7d/users/:id`, whose normalized form `/users/\x7bparam\x7d`
contains no stripped literal. -/
theorem claim_C2_witness :
    normalize_path (normalize_path "\x7b\x7bbaseUrl\x7d\x7d/users/:id".toList) =
      normalize_path "\x7b\x7bbaseUrl\x7d\x7d/users/:id".toList := by
  have hval : normalize_path "\x7b\x7bbaseUrl\x7d\x7d/users/:id".toList =
      "/users/\x7bparam\x7d".toList := by
    simp [normalize_path, stripLiterals, replaceAll, litBase, litLocal, litStaging,
      litHost, litApi, braceSub, colonSub, matchB, matchC, almostB, pB, pC, pParam,
      pySlash, pyStrip, dropTrailWhile, isPySpace, List.isPrefixOf]
  exact claim_C2_amended "\x7b\x7bbaseUrl\x7d\x7d/users/:id".toList
    (by rw [hval]; decide) (by rw [hval]; decide) (by rw [hval]; decide)
    (by rw [hval]; decide) (by rw [hval]; decide)

/-- Claim C3 counterexample: on input `//x` the normalized output is `//x`
itself, which begins with two slashes, not exactly one. -/
theorem claim_C3_counterexample :
    normalize_path "//x".toList = '/' :: '/' :: 'x' :: [] := by
  simp [normalize_path, stripLiterals, replaceAll, litBase, litLocal, litStaging,
    litHost, litApi, braceSub, colonSub, matchB, matchC, almostB, pB, pC, pParam,
    pySlash, pyStrip, dropTrailWhile, isPySpace, List.isPrefixOf]

/-- Claim C3 (amended): for every input, the output of `normalize_path`
starts with a leading slash (at least one; an input already starting with
`/` keeps any further slashes), contains no double-brace placeholder
`\x7b\x7bname\x7d\x7d` with nonempty brace-free name (`noMatchTailsB`), and
contains no colon parameter: every `:` is immediately followed by `/` or ends
the string (`colonOKB`). -/
theorem claim_C3_amended (l : List Char) :
    (normalize_path l).head? = some '/' ∧
      noMatchTailsB (normalize_path l) = true ∧
      colonOKB (normalize_path l) = true := by
  obtain ⟨h1, h2, h3⟩ := np_resid l
  exact ⟨h3, h1, h2⟩

/-! ### Helper lemmas: the dict model and flattening -/

theorem pyDictInsert_pairwise (acc : List (List Char × JVal)) (kv : List Char × JVal)
    (h : acc.Pairwise (fun a b => a.1 ≠ b.1)) :
    (pyDictInsert acc kv).Pairwise (fun a b => a.1 ≠ b.1) := by
  rw [pyDictInsert]
  split
  · rw [List.pairwise_map]
    refine h.imp_of_mem ?_
    intro a b ha hb hab
    split <;> split <;> simpa using hab
  · rename_i hany
    rw [List.pairwise_append]
    refine ⟨h, List.pairwise_singleton _ _, ?_⟩
    intro a ha b hb
    simp only [List.mem_singleton] at hb
    subst hb
    intro heq
    apply hany
    rw [List.any_eq_true]
    exact ⟨a, ha, by simp [heq]⟩

theorem pyDict_pairwise (l : List (List Char × JVal)) :
    (pyDict l).Pairwise (fun a b => a.1 ≠ b.1) := by
  rw [pyDict]
  have key : ∀ (acc : List (List Char × JVal)),
      acc.Pairwise (fun a b => a.1 ≠ b.1) →
      (l.foldl pyDictInsert acc).Pairwise (fun a b => a.1 ≠ b.1) := by
    induction l with
    | nil => intro acc h; simpa using h
    | cons kv rest ih =>
      intro acc h
      rw [List.foldl_cons]
      exact ih _ (pyDictInsert_pairwise acc kv h)
  exact key [] (by simp)

theorem pyDict_of_pairwise (l : List (List Char × JVal))
    (h : l.Pairwise (fun a b => a.1 ≠ b.1)) : pyDict l = l := by
  rw [pyDict]
  have key : ∀ (ll acc : List (List Char × JVal)),
      (acc ++ ll).Pairwise (fun a b => a.1 ≠ b.1) →
      ll.foldl pyDictInsert acc = acc ++ ll := by
    intro ll
    induction ll with
    | nil => intro acc hal; simp
    | cons kv rest ih =>
      intro acc hal
      rw [List.foldl_cons]
      have hnew : pyDictInsert acc kv = acc ++ [kv] := by
        rw [pyDictInsert, if_neg]
        simp only [List.any_eq_true, not_exists, not_and, Bool.not_eq_true]
        intro a ha
        have := (List.pairwise_append.mp hal).2.2 a ha kv (by simp)
        simp [this]
      rw [hnew]
      have := ih (acc ++ [kv]) (by simpa using hal)
      rw [this]
      simp
  have h2 := key l [] (by simpa using h)
  simpa using h2

theorem pyDict_idem (l : List (List Char × JVal)) : pyDict (pyDict l) = pyDict l :=
  pyDict_of_pairwise _ (pyDict_pairwise l)

/-- Claim C4 counterexample: for an array whose first element is itself an
array, `flatten_json` does not recurse into it; recursing (as the claim
states) would give a different result. -/
theorem claim_C4_counterexample :
    ((flatten_json (JVal.jarr [JVal.jarr [JVal.jint 1]]) []).map Prod.fst ==
      (flatten_json (JVal.jarr [JVal.jint 1]) arrMark).map Prod.fst) = false := by
  have hl : flatten_json (JVal.jarr [JVal.jarr [JVal.jint 1]]) [] =
      [(arrMark, JVal.jarr [JVal.jint 1])] := by
    simp [flatten_json, pyDict, pyDictInsert, arrMark]
  have hr : flatten_json (JVal.jarr [JVal.jint 1]) arrMark =
      [(arrMark ++ arrMark, JVal.jint 1)] := by
    simp [flatten_json, pyDict, pyDictInsert, arrMark]
  rw [hl, hr]
  decide

/-- Claim C4 (amended): for a non-empty array, `flatten_json` depends only on
the first element (later elements are never inspected); it recurses on the
first element only when that element is a dict, and otherwise emits the single
field `(prefix ++ "[]", first element)` without recursing. -/
theorem claim_C4_amended (x : JVal) (xs : List JVal) (pk : List Char) :
    flatten_json (JVal.jarr (x :: xs)) pk = flatten_json (JVal.jarr [x]) pk ∧
      (pyIsDict x = false →
        flatten_json (JVal.jarr (x :: xs)) pk = [(pk ++ arrMark, x)]) ∧
      (pyIsDict x = true →
        flatten_json (JVal.jarr (x :: xs)) pk = flatten_json x (pk ++ arrMark)) := by
  refine ⟨?_, ?_, ?_⟩
  · cases x <;> simp [flatten_json]
  · intro hx
    cases x <;> simp_all [pyIsDict] <;> simp [flatten_json, pyDict, pyDictInsert]
  · intro hx
    cases x with
    | jobj kvs =>
      rw [show flatten_json (JVal.jarr (JVal.jobj kvs :: xs)) pk =
          pyDict (flatten_json (JVal.jobj kvs) (pk ++ arrMark)) from by
        simp [flatten_json]]
      conv_lhs => rw [show flatten_json (JVal.jobj kvs) (pk ++ arrMark) =
        pyDict (List.flatten ((kvs.attach.map
          (fun kv => flatten_json kv.1.2 (newKey (pk ++ arrMark) kv.1.1))))) from by
        simp [flatten_json]]
      rw [pyDict_idem]
      simp [flatten_json]
    | jnull => simp [pyIsDict] at hx
    | jbool b => simp [pyIsDict] at hx
    | jint n => simp [pyIsDict] at hx
    | jfloat m e => simp [pyIsDict] at hx
    | jstr s => simp [pyIsDict] at hx
    | jarr ys => simp [pyIsDict] at hx
    | jother d => simp [pyIsDict] at hx

/-- Claim C4 witness: the amended statement applied at a concrete array whose
first element is a non-dict (an inner array) and whose second element is
never inspected. -/
theorem claim_C4_witness :
    flatten_json (JVal.jarr [JVal.jarr [JVal.jint 1], JVal.jint 7]) [] =
      [(arrMark, JVal.jarr [JVal.jint 1])] := by
  have h := (claim_C4_amended (JVal.jarr [JVal.jint 1]) [JVal.jint 7] []).2.1 (by rfl)
  simpa using h

/-- Claim C8: flattening the spec's example object yields exactly
`a.b` one, `c[]` one, `d[]` empty-array, in insertion order; and flattening
any bare scalar (neither dict nor list) yields the single field
`(prefix, scalar)`. -/
theorem claim_C8 :
    flatten_json exC8 [] =
      [("a.b".toList, JVal.jint 1), ("c[]".toList, JVal.jint 1),
       ("d[]".toList, JVal.jarr [])] ∧
      (∀ (v : JVal) (pk : List Char),
        pyIsDict v = false → pyIsList v = false → flatten_json v pk = [(pk, v)]) := by
  constructor
  · simp [exC8, flatten_json, pyDict, pyDictInsert, newKey, arrMark]
  · intro v pk h1 h2
    cases v <;> simp_all [pyIsDict, pyIsList] <;>
      simp [flatten_json, pyDict, pyDictInsert]

/-- Claim C8 witness: the scalar clause applied at the spec's example,
the bare string `"ok"` with prefix `p`. -/
theorem claim_C8_witness :
    flatten_json (JVal.jstr "ok".toList) "p".toList =
      [("p".toList, JVal.jstr "ok".toList)] :=
  claim_C8.2 (JVal.jstr "ok".toList) "p".toList (by rfl) (by rfl)

/-- Claim C9: `get_type_name` classifies booleans before integers (Python
booleans are integers, so the order in the isinstance chain matters) and maps
every class of value to its documented type name; a non-JSON value falls back
to its raw type descriptor. -/
theorem claim_C9 :
    (∀ b, get_type_name (JVal.jbool b) = "boolean".toList) ∧
      (∀ n, get_type_name (JVal.jint n) = "integer".toList) ∧
      (∀ m e, get_type_name (JVal.jfloat m e) = "float".toList) ∧
      (∀ s, get_type_name (JVal.jstr s) = "string".toList) ∧
      (∀ xs, get_type_name (JVal.jarr xs) = "array".toList) ∧
      (∀ kvs, get_type_name (JVal.jobj kvs) = "object".toList) ∧
      get_type_name JVal.jnull = "null".toList ∧
      (∀ d, get_type_name (JVal.jother d) = d) := by
  refine ⟨?_, ?_, ?_, ?_, ?_, ?_, ?_, ?_⟩ <;> intros <;>
    simp [get_type_name, pyIsBool, pyIsIntInst, pyIsFloat, pyIsStr, pyIsList,
      pyIsDict, pyIsNone, pyTypeDesc]


/-! ### Report Assembler claims -/

theorem emitRows_source (ep : Endpoint) (rd : Option JVal) (src : List Char) :
    (emitRows ep rd src).all (fun r => r.source == src) = true := by
  rcases rd with - | v
  · simp [emitRows]
  · simp only [emitRows]
    split
    · cases v with
      | jobj kvs =>
        rw [List.all_eq_true]
        intro r hr
        rw [List.mem_map] at hr
        obtain ⟨kv, hkv, rfl⟩ := hr
        simp [mkDataRow]
      | jarr xs =>
        rw [List.all_eq_true]
        intro r hr
        rw [List.mem_map] at hr
        obtain ⟨kv, hkv, rfl⟩ := hr
        simp [mkDataRow]
      | jnull => simp
      | jbool b => simp
      | jint n => simp
      | jfloat m e => simp
      | jstr s => simp
      | jother d => simp
    · simp

/-- Claim C1 (amended): the documented response is used with source
`"API Docs"` exactly when the looked-up value is truthy; when the key is
absent or the documented value is falsy (`\x7b\x7d`, `[]`, `""`, `0`, `false`,
`null`), the request-body fallback is consulted instead, tagging rows
`"Inferred from Request"`. -/
theorem claim_C1_amended (ep : Endpoint) (tbl : Table) :
    (∀ v, dictGet (keyOf ep) tbl = some v → pyTruthy v = true →
      (rowsFor ep tbl).all (fun r => r.source == srcDocs) = true) ∧
      (pyTruthyO (dictGet (keyOf ep) tbl) = false → isBodyTruthyDict ep = true →
        (rowsFor ep tbl).all (fun r => r.source == srcInferred) = true) := by
  constructor
  · intro v hv htr
    rw [rowsFor]
    have hch : chosenOf ep tbl = (some v, srcDocs) := by
      simp only [chosenOf, hv]
      rw [if_pos (show pyTruthyO (some v) = true from htr)]
    rw [hch]
    exact emitRows_source ep (some v) srcDocs
  · intro hfal hbody
    rw [rowsFor]
    have hch : chosenOf ep tbl = (bodyVal ep, srcInferred) := by
      simp only [chosenOf]
      rw [if_neg (by simp [hfal]), if_pos hbody]
    rw [hch]
    exact emitRows_source ep (bodyVal ep) srcInferred

/-- Claim C1 counterexample: the key `GET /x` is present in the table with
the documented (empty-object) response, yet the emitted row is sourced
`"Inferred from Request"`, because `if not resp_data:` treats the falsy
documented value like an absent key. -/
theorem claim_C1_counterexample :
    dictGet (keyOf epC1) tblC1 = some (JVal.jobj []) ∧
      (rowsFor epC1 tblC1).map (fun r => r.source) = [srcInferred] := by
  constructor
  · simp [epC1, tblC1, normalize_path, stripLiterals, replaceAll, litBase, litLocal, litStaging,
      litHost, litApi, braceSub, colonSub, matchB, matchC, almostB, pB, pC, pParam,
      pySlash, pyStrip, dropTrailWhile, isPySpace, List.isPrefixOf, rowsFor, chosenOf,
      emitRows, mkDataRow, mkEndpoint, keyOf, dictGet, pyTruthy, pyTruthyO,
      isBodyTruthyDict, bodyVal, srcDocs, srcInferred, srcNoExample, flatten_json,
      newKey, arrMark, get_type_name, pyIsBool, pyIsIntInst, pyIsFloat, pyIsStr,
      pyIsList, pyIsDict, pyIsNone, pyTypeDesc, pyStr, pyRepr, intStr, Nat.toDigits,
      Nat.toDigitsCore, Nat.digitChar, joinComma, pyDict, pyDictInsert]
  · simp [epC1, tblC1, normalize_path, stripLiterals, replaceAll, litBase, litLocal, litStaging,
      litHost, litApi, braceSub, colonSub, matchB, matchC, almostB, pB, pC, pParam,
      pySlash, pyStrip, dropTrailWhile, isPySpace, List.isPrefixOf, rowsFor, chosenOf,
      emitRows, mkDataRow, mkEndpoint, keyOf, dictGet, pyTruthy, pyTruthyO,
      isBodyTruthyDict, bodyVal, srcDocs, srcInferred, srcNoExample, flatten_json,
      newKey, arrMark, get_type_name, pyIsBool, pyIsIntInst, pyIsFloat, pyIsStr,
      pyIsList, pyIsDict, pyIsNone, pyTypeDesc, pyStr, pyRepr, intStr, Nat.toDigits,
      Nat.toDigitsCore, Nat.digitChar, joinComma, pyDict, pyDictInsert]

/-- Claim C1 witness: the amended statement applied on both sides — a truthy
documented value keeps `"API Docs"`, and a falsy documented value with a dict
request body falls back to `"Inferred from Request"`. -/
theorem claim_C1_witness :
    (rowsFor epC5 tblC1w).all (fun r => r.source == srcDocs) = true ∧
      (rowsFor epC1 tblC1).all (fun r => r.source == srcInferred) = true := by
  constructor
  · exact (claim_C1_amended epC5 tblC1w).1 (JVal.jobj [("b".toList, JVal.jint 2)])
      (by simp [epC5, tblC1w, normalize_path, stripLiterals, replaceAll, litBase, litLocal, litStaging,
      litHost, litApi, braceSub, colonSub, matchB, matchC, almostB, pB, pC, pParam,
      pySlash, pyStrip, dropTrailWhile, isPySpace, List.isPrefixOf, rowsFor, chosenOf,
      emitRows, mkDataRow, mkEndpoint, keyOf, dictGet, pyTruthy, pyTruthyO,
      isBodyTruthyDict, bodyVal, srcDocs, srcInferred, srcNoExample, flatten_json,
      newKey, arrMark, get_type_name, pyIsBool, pyIsIntInst, pyIsFloat, pyIsStr,
      pyIsList, pyIsDict, pyIsNone, pyTypeDesc, pyStr, pyRepr, intStr, Nat.toDigits,
      Nat.toDigitsCore, Nat.digitChar, joinComma, pyDict, pyDictInsert]) (by rfl)
  · exact (claim_C1_amended epC1 tblC1).2
      (by simp [epC1, tblC1, normalize_path, stripLiterals, replaceAll, litBase, litLocal, litStaging,
      litHost, litApi, braceSub, colonSub, matchB, matchC, almostB, pB, pC, pParam,
      pySlash, pyStrip, dropTrailWhile, isPySpace, List.isPrefixOf, rowsFor, chosenOf,
      emitRows, mkDataRow, mkEndpoint, keyOf, dictGet, pyTruthy, pyTruthyO,
      isBodyTruthyDict, bodyVal, srcDocs, srcInferred, srcNoExample, flatten_json,
      newKey, arrMark, get_type_name, pyIsBool, pyIsIntInst, pyIsFloat, pyIsStr,
      pyIsList, pyIsDict, pyIsNone, pyTypeDesc, pyStr, pyRepr, intStr, Nat.toDigits,
      Nat.toDigitsCore, Nat.digitChar, joinComma, pyDict, pyDictInsert]) (by rfl)

/-- Claim C5 (amended): when the chosen example data is a truthy dict or
list, the number of data rows equals the number of fields its flattening
produces — which can be zero (for example a dict all of whose leaves are
empty objects), so there is no minimum of one. -/
theorem claim_C5_amended (ep : Endpoint) (tbl : Table) (v : JVal) (src : List Char)
    (hch : chosenOf ep tbl = (some v, src)) (htr : pyTruthy v = true)
    (hdl : (pyIsDict v || pyIsList v) = true) :
    (rowsFor ep tbl).length = (flatten_json v []).length := by
  rw [rowsFor, hch]
  cases v with
  | jobj kvs => simp [emitRows, htr]
  | jarr xs => simp [emitRows, htr]
  | jnull => simp [pyIsDict, pyIsList] at hdl
  | jbool b => simp [pyIsDict, pyIsList] at hdl
  | jint n => simp [pyIsDict, pyIsList] at hdl
  | jfloat m e => simp [pyIsDict, pyIsList] at hdl
  | jstr s => simp [pyIsDict, pyIsList] at hdl
  | jother d => simp [pyIsDict, pyIsList] at hdl

/-- Claim C5 counterexample: the chosen example for `GET /x` is the truthy
dict `\x7b"a": \x7b\x7d\x7d`, whose flattening has zero fields, and the
endpoint emits zero rows — not at least one. -/
theorem claim_C5_counterexample :
    chosenOf epC5 tblC5 = (some (JVal.jobj [("a".toList, JVal.jobj [])]), srcDocs) ∧
      rowsFor epC5 tblC5 = [] := by
  constructor
  · simp [epC5, tblC5, normalize_path, stripLiterals, replaceAll, litBase, litLocal, litStaging,
      litHost, litApi, braceSub, colonSub, matchB, matchC, almostB, pB, pC, pParam,
      pySlash, pyStrip, dropTrailWhile, isPySpace, List.isPrefixOf, rowsFor, chosenOf,
      emitRows, mkDataRow, mkEndpoint, keyOf, dictGet, pyTruthy, pyTruthyO,
      isBodyTruthyDict, bodyVal, srcDocs, srcInferred, srcNoExample, flatten_json,
      newKey, arrMark, get_type_name, pyIsBool, pyIsIntInst, pyIsFloat, pyIsStr,
      pyIsList, pyIsDict, pyIsNone, pyTypeDesc, pyStr, pyRepr, intStr, Nat.toDigits,
      Nat.toDigitsCore, Nat.digitChar, joinComma, pyDict, pyDictInsert]
  · simp [epC5, tblC5, normalize_path, stripLiterals, replaceAll, litBase, litLocal, litStaging,
      litHost, litApi, braceSub, colonSub, matchB, matchC, almostB, pB, pC, pParam,
      pySlash, pyStrip, dropTrailWhile, isPySpace, List.isPrefixOf, rowsFor, chosenOf,
      emitRows, mkDataRow, mkEndpoint, keyOf, dictGet, pyTruthy, pyTruthyO,
      isBodyTruthyDict, bodyVal, srcDocs, srcInferred, srcNoExample, flatten_json,
      newKey, arrMark, get_type_name, pyIsBool, pyIsIntInst, pyIsFloat, pyIsStr,
      pyIsList, pyIsDict, pyIsNone, pyTypeDesc, pyStr, pyRepr, intStr, Nat.toDigits,
      Nat.toDigitsCore, Nat.digitChar, joinComma, pyDict, pyDictInsert]

/-- Claim C5 witness: the amended row-count equality applied at a concrete
endpoint whose documented response is `\x7b"b": 2\x7d`. -/
theorem claim_C5_witness :
    (rowsFor epC5 tblC1w).length =
      (flatten_json (JVal.jobj [("b".toList, JVal.jint 2)]) []).length := by
  refine claim_C5_amended epC5 tblC1w (JVal.jobj [("b".toList, JVal.jint 2)])
    srcDocs ?_ (by rfl) (by rfl)
  simp [epC5, tblC1w, normalize_path, stripLiterals, replaceAll, litBase, litLocal, litStaging,
      litHost, litApi, braceSub, colonSub, matchB, matchC, almostB, pB, pC, pParam,
      pySlash, pyStrip, dropTrailWhile, isPySpace, List.isPrefixOf, rowsFor, chosenOf,
      emitRows, mkDataRow, mkEndpoint, keyOf, dictGet, pyTruthy, pyTruthyO,
      isBodyTruthyDict, bodyVal, srcDocs, srcInferred, srcNoExample, flatten_json,
      newKey, arrMark, get_type_name, pyIsBool, pyIsIntInst, pyIsFloat, pyIsStr,
      pyIsList, pyIsDict, pyIsNone, pyTypeDesc, pyStr, pyRepr, intStr, Nat.toDigits,
      Nat.toDigitsCore, Nat.digitChar, joinComma, pyDict, pyDictInsert]


/-! ### Documentation Extractor claims -/

/-- Claim C6: the end-to-end scenario.  The documentation document of `docC6`
(`GET /users/:id` header, `**Response:**` marker, fenced JSON body) paired
with a collection endpoint `GET \x7b\x7bbaseUrl\x7d\x7d/users/\x7b\x7buserId\x7d\x7d`
yields exactly two data rows: (`id`, integer, `1`, "API Docs") and
(`name`, string, `Ann`, "API Docs"). -/
theorem claim_C6 :
    (rowsFor epC6 (parse_markdown_responses docC6)).map
        (fun r => (r.varName, r.varType, r.exVal, r.source)) =
      [("id".toList, "integer".toList, "1".toList, "API Docs".toList),
       ("name".toList, "string".toList, "Ann".toList, "API Docs".toList)] := by
  simp [docC6, epC6, parse_markdown_responses, scanOuter, scanInner, pyStrip, dropTrailWhile,
    isPySpace, isHeaderLine, containsSub, splitFirstSpace, recordResponse, keyOfState,
    pyJsonLoads, parseVal, parseObjItems, parseArrItems, parseStrRest, parseNum,
    jskip, isJDigit, digitsToNat, pyDict, pyDictInsert, normalize_path, stripLiterals,
    replaceAll, litBase, litLocal, litStaging, litHost, litApi, braceSub, colonSub,
    matchB, matchC, almostB, pB, pC, pParam, pySlash, List.isPrefixOf,
    List.intercalate, List.intersperse, rowsFor, chosenOf, emitRows, mkDataRow,
    mkEndpoint, keyOf, dictGet, pyTruthy, pyTruthyO, isBodyTruthyDict, bodyVal,
    srcDocs, srcInferred, srcNoExample, flatten_json, newKey, arrMark, get_type_name,
    pyIsBool, pyIsIntInst, pyIsFloat, pyIsStr, pyIsList, pyIsDict, pyIsNone,
    pyTypeDesc, pyStr, pyRepr, intStr, Nat.toDigits, Nat.toDigitsCore, Nat.digitChar,
    joinComma]

/-- Claim C7: an undecodable documented response block is silently discarded
(the table is unchanged, never an error), and an undecodable request body is
kept as the raw string; both failures are absorbed per item. -/
theorem claim_C7 :
    (∀ (st : StateK) (txt : List Char) (tbl : Table),
      pyJsonLoads txt = none → recordResponse st txt tbl = tbl) ∧
      (∀ raw : List Char, pyJsonLoads raw = none → parseBodyRaw raw = Sum.inr raw) := by
  constructor
  · intro st txt tbl h
    rw [recordResponse, h]
  · intro raw h
    rw [parseBodyRaw, h]

/-- Claim C7 witness: both clauses applied at the spec's example of invalid
JSON, an object with a trailing comma. -/
theorem claim_C7_witness :
    recordResponse none "\x7b\"a\": 1,\x7d".toList tblC1 = tblC1 ∧
      parseBodyRaw "\x7b\"a\": 1,\x7d".toList = Sum.inr "\x7b\"a\": 1,\x7d".toList := by
  constructor
  · exact claim_C7.1 none _ tblC1 (by
      simp [pyJsonLoads, parseVal, parseObjItems, parseArrItems, parseStrRest,
        parseNum, jskip, isJDigit, digitsToNat, pyDict, pyDictInsert])
  · exact claim_C7.2 _ (by
      simp [pyJsonLoads, parseVal, parseObjItems, parseArrItems, parseStrRest,
        parseNum, jskip, isJDigit, digitsToNat, pyDict, pyDictInsert])

/-- Claim C10: a `**Response` marker with a valid fenced JSON block occurring
before any endpoint header is recorded under the literal key `"None None"`
(from the unset method/path state), and such a key can never match a real
endpoint's lookup key `f"\x7bmethod\x7d \x7bnorm_url\x7d"`, because every
normalized URL begins with `/` while `"None None"` contains no slash. -/
theorem claim_C10 :
    parse_markdown_responses docC10 =
      [("None None".toList, JVal.jobj [("ok".toList, JVal.jbool true)])] ∧
      (∀ (method p : List Char),
        (method ++ ' ' :: normalize_path p == "None None".toList) = false) := by
  constructor
  · simp [docC10, parse_markdown_responses, scanOuter, scanInner, pyStrip, dropTrailWhile,
    isPySpace, isHeaderLine, containsSub, splitFirstSpace, recordResponse, keyOfState,
    pyJsonLoads, parseVal, parseObjItems, parseArrItems, parseStrRest, parseNum,
    jskip, isJDigit, digitsToNat, pyDict, pyDictInsert, normalize_path, stripLiterals,
    replaceAll, litBase, litLocal, litStaging, litHost, litApi, braceSub, colonSub,
    matchB, matchC, almostB, pB, pC, pParam, pySlash, List.isPrefixOf,
    List.intercalate, List.intersperse, rowsFor, chosenOf, emitRows, mkDataRow,
    mkEndpoint, keyOf, dictGet, pyTruthy, pyTruthyO, isBodyTruthyDict, bodyVal,
    srcDocs, srcInferred, srcNoExample, flatten_json, newKey, arrMark, get_type_name,
    pyIsBool, pyIsIntInst, pyIsFloat, pyIsStr, pyIsList, pyIsDict, pyIsNone,
    pyTypeDesc, pyStr, pyRepr, intStr, Nat.toDigits, Nat.toDigitsCore, Nat.digitChar,
    joinComma]
  · intro method p
    rw [show (method ++ ' ' :: normalize_path p == "None None".toList) = false ↔
        method ++ ' ' :: normalize_path p ≠ "None None".toList from beq_eq_false_iff_ne]
    intro h
    have hh := (np_resid p).2.2
    have hmem : '/' ∈ method ++ ' ' :: normalize_path p := by
      rw [List.mem_append]
      right
      rw [List.mem_cons]
      right
      cases hnp : normalize_path p with
      | nil => rw [hnp] at hh; simp at hh
      | cons c cs =>
        rw [hnp] at hh
        simp at hh
        subst hh
        simp
    rw [h] at hmem
    exact absurd hmem (by decide)
